import Mathlib

/-!
Shallow embedding of the name-disambiguation core of this repository
(`src/name_disambiguation/person.py` and `src/backend/apps/main/models.py`),
together with proofs about the claims of its specification.

Modelling conventions:
* Python strings are `List Char` (`PyStr`).  The corpus is ASCII, so
  `str.upper`, `str.lower` and `str.capitalize` are modelled on the ASCII
  letters (other characters are left unchanged, as Python does for them).
* Python `collections.Counter` objects are insertion-ordered association
  lists `List (PyStr × Int)` with at most one entry per key.  `Counter`
  iteration order is insertion order; `Counter.most_common()` is a stable
  sort by descending count (Python's `sorted` is stable), modelled here by
  a stable insertion sort.
* Python exceptions are modelled with `Except PyErr`; `PyErr.indexError`
  models an `IndexError` raised by an out-of-range subscript, and
  `PyErr.diverge` models non-termination of a `while True:` loop that makes
  no progress (reachable only for lookup-table keys of length `≤ 1`).
* `hash` of a Python string is abstracted as the string itself: equal
  strings hash equally (exactly as in Python); distinct strings are taken
  to hash differently, which ignores the negligible possibility of a
  SipHash collision.  `Person.__eq__`, which compares hashes of the
  serialized records, is therefore modelled as equality of the serialized
  key strings (`personKey`).
* The external `nameparser.HumanName` library is not part of this
  repository; following the specification (§4.3/§9 treat it as an abstract
  "Last, First Middle Suffix" splitting capability) it is a parameter
  `SplitFn` of every function that uses it.  A concrete instance
  `specSplit`, modelled from the specification, is used for closed
  evaluations.
* `clean_org_names.RAW_ORG_TO_CLEAN_ORG_DICT` is repository code that is
  not under `src/`; the lookup table is therefore a parameter, and the
  concrete `orgTable` below is modelled from the specification and the
  repository's unit tests.
-/

namespace Tob

abbrev PyStr := List Char

def str (s : String) : PyStr := s.data

/-- ASCII lower/upper case letter pairs, used to model Python's `str.upper`
and `str.lower` on the corpus's ASCII data. -/
def caseTable : List (Char × Char) :=
  [('a', 'A'), ('b', 'B'), ('c', 'C'), ('d', 'D'), ('e', 'E'), ('f', 'F'), ('g', 'G'),
   ('h', 'H'), ('i', 'I'), ('j', 'J'), ('k', 'K'), ('l', 'L'), ('m', 'M'), ('n', 'N'),
   ('o', 'O'), ('p', 'P'), ('q', 'Q'), ('r', 'R'), ('s', 'S'), ('t', 'T'), ('u', 'U'),
   ('v', 'V'), ('w', 'W'), ('x', 'X'), ('y', 'Y'), ('z', 'Z')]

def upperChar (c : Char) : Char :=
  match caseTable.find? (fun p => p.1 == c) with
  | some p => p.2
  | none => c

def lowerChar (c : Char) : Char :=
  match caseTable.find? (fun p => p.2 == c) with
  | some p => p.1
  | none => c

def upperStr (s : PyStr) : PyStr := s.map upperChar

def lowerStr (s : PyStr) : PyStr := s.map lowerChar

/-- Python `str.capitalize`: first character upper-cased, the rest lower-cased. -/
def capitalizeStr : PyStr → PyStr
  | [] => []
  | c :: cs => upperChar c :: cs.map lowerChar

def isUpperB (c : Char) : Bool := decide (65 ≤ c.toNat) && decide (c.toNat ≤ 90)

def isLowerB (c : Char) : Bool := decide (97 ≤ c.toNat) && decide (c.toNat ≤ 122)

def isAlphaB (c : Char) : Bool := isUpperB c || isLowerB c

def isDigitB (c : Char) : Bool := decide (48 ≤ c.toNat) && decide (c.toNat ≤ 57)

/-- Regex `\w` (word character): letters, digits, underscore (ASCII model). -/
def isWordB (c : Char) : Bool := isAlphaB c || isDigitB c || c == '_'

/-- Python `str.strip(chars)` from the left only. -/
def stripLeft (cs chs : PyStr) : PyStr := cs.dropWhile (fun c => chs.contains c)

def stripRight (cs chs : PyStr) : PyStr := (stripLeft cs.reverse chs).reverse

/-- Python `str.strip(chars)`. -/
def stripChars (cs chs : PyStr) : PyStr := stripRight (stripLeft cs chs) chs

/-- Python whitespace set for no-argument `str.strip()`. -/
def wsChars : PyStr := [' ', '\t', '\n', '\r', Char.ofNat 11, Char.ofNat 12]

def stripWs (cs : PyStr) : PyStr := stripChars cs wsChars

/-- Auxiliary scan for Python `str.find`: least index at which `pat` is a
prefix of the remaining string. -/
def findSubAux (pat : PyStr) : PyStr → Nat → Option Nat
  | [], i => if pat.isPrefixOf [] then some i else none
  | c :: t, i => if pat.isPrefixOf (c :: t) then some i else findSubAux pat t (i + 1)

/-- Python `str.find`, with `none` for `-1`. -/
def findSub (s pat : PyStr) : Option Nat := findSubAux pat s 0

/-- Python `str.split(sep)` for a non-empty separator (fuelled; the fuel
`s.length` is sufficient since every found separator consumes at least one
character). -/
def splitOnSubAux (sep : PyStr) : PyStr → Nat → List PyStr
  | s, 0 => [s]
  | s, fuel+1 =>
    match findSub s sep with
    | none => [s]
    | some i => s.take i :: splitOnSubAux sep (s.drop (i + sep.length)) fuel

def splitOnSub (s sep : PyStr) : List PyStr :=
  if sep.isEmpty then [s] else splitOnSubAux sep s s.length

/-- Python `str.replace(pat, '')`: left-to-right, non-overlapping removal of
every occurrence of `pat`. -/
def replaceAllAux (pat : PyStr) : PyStr → Nat → PyStr
  | s, 0 => s
  | [], _ + 1 => []
  | c :: t, fuel+1 =>
    if pat.isEmpty then c :: replaceAllAux pat t fuel
    else if pat.isPrefixOf (c :: t) then replaceAllAux pat ((c :: t).drop pat.length) fuel
    else c :: replaceAllAux pat t fuel

def replaceAll (s pat : PyStr) : PyStr := replaceAllAux pat s s.length

def countChar (s : PyStr) (c : Char) : Nat := s.count c

/-- Python `re.sub(r'\.', '', s)`. -/
def removeDots (s : PyStr) : PyStr := s.filter (fun c => c != '.')

def wordAtB (s : PyStr) (i : Nat) : Bool :=
  match s.drop i with
  | [] => false
  | c :: _ => isWordB c

/-- Regex `\b` at position `p`: the word-character status changes between
`p - 1` and `p` (out-of-range counts as a non-word character). -/
def boundaryAtB (s : PyStr) (p : Nat) : Bool :=
  (if p = 0 then false else wordAtB s (p - 1)) != wordAtB s p

/-- A whole-word (`\b pat \b`) match of `pat` at position `i` of `s`. -/
def matchWordAt (s pat : PyStr) (i : Nat) : Bool :=
  ((s.drop i).take pat.length == pat) && boundaryAtB s i && boundaryAtB s (i + pat.length)

/-- First whole-word match position at or after `start` (as `re.finditer`
visits matches). -/
def nextHitFrom (s pat : PyStr) (start : Nat) : Option Nat :=
  (List.range (s.length + 1)).find? (fun i => decide (start ≤ i) && matchWordAt s pat i)

def lastHitAux (s pat : PyStr) : Nat → Option Nat → Nat → Option Nat
  | _, acc, 0 => acc
  | start, acc, fuel+1 =>
    match nextHitFrom s pat start with
    | none => acc
    | some j => lastHitAux s pat (j + max pat.length 1) (some j) fuel

/-- Start position of the last `re.finditer(r'\b' + pat + r'\b', s)` match
(the `for search_hit in re.finditer(...): pass` idiom of the source). -/
def lastHit (s pat : PyStr) : Option Nat := lastHitAux s pat 0 none (s.length + 1)

/- ===================== Counter model ===================== -/

abbrev Counter := List (PyStr × Int)

/-- Python `counter[k] += n`: update in place if the key exists (keeping its
position), otherwise append the new key at the end. -/
def counterAdd (c : Counter) (k : PyStr) (n : Int) : Counter :=
  match c with
  | [] => [(k, n)]
  | p :: rest => if p.1 == k then (p.1, p.2 + n) :: rest else p :: counterAdd rest k n

/-- Accumulate a sequence of `(key, weight)` pairs into a fresh Counter. -/
def accumulate (l : List (PyStr × Int)) : Counter :=
  l.foldl (fun c p => counterAdd c p.1 p.2) []

/-- Python `Counter.__iadd__` (`c += d`): fold `d` into `c`, then drop all
non-positive counts (`_keep_positive`). -/
def counterMerge (c d : Counter) : Counter :=
  (d.foldl (fun acc p => counterAdd acc p.1 p.2) c).filter (fun p => decide (0 < p.2))

def geCntB (a b : PyStr × Int) : Bool := decide (b.2 ≤ a.2)

def insSorted (a : PyStr × Int) : List (PyStr × Int) → List (PyStr × Int)
  | [] => [a]
  | b :: bs => if geCntB a b then a :: b :: bs else b :: insSorted a bs

/-- Python `Counter.most_common()`: stable sort by descending count
(equal counts keep insertion order).  A stable insertion sort computes the
same list as Python's stable `sorted(..., key=count, reverse=True)`. -/
def mostCommon (c : Counter) : List (PyStr × Int) :=
  c.foldr insSorted []

def keyList (c : Counter) : List PyStr := c.map Prod.fst

def lookupZ (c : Counter) (k : PyStr) : Option Int :=
  match c.find? (fun p => p.1 == k) with
  | some p => some p.2
  | none => none

def weightSum (l : List (PyStr × Int)) (k : PyStr) : Int :=
  ((l.filter (fun p => p.1 == k)).map Prod.snd).sum

/-- No two entries of the counter carry the same count (decidable form,
used as a hypothesis about tie-free multisets). -/
def distinctCountsB (c : Counter) : Bool :=
  c.all (fun p => c.all (fun q => decide (p.2 = q.2 → p = q)))

def sq : Char := Char.ofNat 39

def dq : Char := Char.ofNat 34

def lbrace : Char := Char.ofNat 123

def rbrace : Char := Char.ofNat 125

def joinWith (sep : PyStr) : List PyStr → PyStr
  | [] => []
  | [x] => x
  | x :: y :: xs => x ++ sep ++ joinWith sep (y :: xs)

/-- Python `repr` of an int. -/
def intRepr (n : Int) : PyStr := str (toString n)

/-- Python `repr` of a string, for keys free of quotes, backslashes and
non-printable characters (all keys handled in this development are). -/
def strRepr (k : PyStr) : PyStr := sq :: (k ++ [sq])

/-- Python `str(Counter)` / `repr(Counter)`: `Counter()` when empty,
otherwise the `most_common()` items rendered as a dict literal. -/
def counterRepr (c : Counter) : PyStr :=
  if c.isEmpty then str "Counter()"
  else
    str "Counter(" ++ [lbrace] ++
      joinWith (str ", ") ((mostCommon c).map (fun p => strRepr p.1 ++ str ": " ++ intRepr p.2)) ++
      [rbrace, ')']

/- ===================== Person ===================== -/

structure Person where
  last : PyStr
  first : PyStr
  middle : PyStr
  positions : Counter
  aliases : Counter
  count : Int
  deriving DecidableEq

/-- The string hashed by `Person.__hash__`:
`f'{last} {first} {middle} {positions} {aliases}'`. -/
def personKey (p : Person) : PyStr :=
  p.last ++ [' '] ++ p.first ++ [' '] ++ p.middle ++ [' '] ++
    counterRepr p.positions ++ [' '] ++ counterRepr p.aliases

/-- `Person.__eq__`: `hash(self) == hash(other)`, with the string hash
abstracted as the string itself (see the header comment). -/
def personBeq (p q : Person) : Bool := personKey p == personKey q

inductive PyErr where
  | indexError
  | diverge
  deriving DecidableEq

deriving instance DecidableEq for Except

/-- The `positions`/`aliases` constructor arguments: either a `Counter` or a
plain iterable collection of strings. -/
inductive CounterArg where
  | counter (c : Counter)
  | plain (l : List PyStr)
  deriving DecidableEq

/-- The positions-normalization loop of `Person.__init__`
(`self.positions[re.sub(r'\.', '', i).upper()] += count`). -/
def buildWeighted (l : List PyStr) (count : Int) : Counter :=
  l.foldl (fun acc i => counterAdd acc (upperStr (removeDots i)) count) []

/-- The aliases-normalization loop of `Person.__init__`
(`self.aliases[i.upper()] += count`; no period stripping here). -/
def buildAliases (l : List PyStr) (count : Int) : Counter :=
  l.foldl (fun acc i => counterAdd acc (upperStr i) count) []

structure ParseOut where
  first : PyStr
  middle : PyStr
  last : PyStr
  positions : Counter
  deriving DecidableEq

/-- `Person.__init__`, parameterized by the raw-name parser it calls
(`Person.parse_raw_name`).  The `docs_authored`/`docs_received` arguments are
omitted: the claims treated here only concern records constructed without
document sets, and those arguments do not influence any other field.
Mirrors the source line by line, including the duplicated
positions-normalization block (source lines 83-90), which re-derives
`self.positions` from the *original* `positions` argument: for a `Counter`
argument this is a no-op thanks to object aliasing of the in-place `+=`,
but for a plain collection it rebuilds the counter and discards any
positions merged from parsing the raw name. -/
def personInit (parse : PyStr → Int → Except PyErr ParseOut)
    (nameRaw : Option PyStr) (last first middle : PyStr)
    (positionsArg : Option CounterArg) (aliasesArg : Option CounterArg)
    (count : Int) : Except PyErr Person := do
  let posArg : CounterArg := match positionsArg with
    | none => .counter []
    | some a => a
  let selfPos : Counter := match posArg with
    | .counter c => c
    | .plain l => buildWeighted l count
  let parsed : Option ParseOut ←
    match nameRaw with
    | some nr =>
      if nr.isEmpty then pure none
      else do
        let r ← parse nr count
        pure (some r)
    | none => pure none
  let (first1, middle1, last1, selfPos1) :=
    match parsed with
    | some r =>
      (r.first, r.middle, r.last,
        if r.positions.isEmpty then selfPos else counterMerge selfPos r.positions)
    | none => (first, middle, last, selfPos)
  let aliasArg : CounterArg :=
    match aliasesArg with
    | some a => a
    | none =>
      match nameRaw with
      | none => .counter []
      | some nr => .counter [(upperStr nr, count)]
  let selfPos2 : Counter :=
    match posArg with
    | .counter _ => selfPos1
    | .plain l => buildWeighted l count
  let selfAliases : Counter :=
    match aliasArg with
    | .counter c => c
    | .plain l => buildAliases l count
  pure ⟨upperStr last1, upperStr first1, upperStr middle1, selfPos2, selfAliases, count⟩

/-- The value `Person.__init__` stores for `self.positions` when no raw name
is given (or, because of the duplicated normalization block, whenever the
`positions` argument is a plain collection). -/
def posArgValue (pa : Option CounterArg) (cnt : Int) : Counter :=
  match pa with
  | none => []
  | some (.counter c) => c
  | some (.plain l) => buildWeighted l cnt

/-- The value `Person.__init__` stores for `self.aliases` when an explicit
`aliases` argument is given or no raw name is given. -/
def aliasArgValue (aa : Option CounterArg) (cnt : Int) : Counter :=
  match aa with
  | none => []
  | some (.counter c) => c
  | some (.plain l) => buildAliases l cnt

/-- `Person.copy()`: re-construct from the record's own fields (deep copies
are value copies in this pure model). -/
def personCopy (parse : PyStr → Int → Except PyErr ParseOut) (p : Person) :
    Except PyErr Person :=
  personInit parse none p.last p.first p.middle (some (.counter p.positions))
    (some (.counter p.aliases)) p.count

/-- Regex `^[a-zA-Z]+$`. -/
def allAlphaB (s : PyStr) : Bool := !s.isEmpty && s.all isAlphaB

/-- `Person.check_if_this_person_looks_valid` on already-stored fields. -/
def checkValidLooking (last first middle : PyStr) : Bool :=
  allAlphaB last && allAlphaB first && (middle.isEmpty || allAlphaB middle)

/-- `Person(last=.., middle=.., first=..).check_if_this_person_looks_valid()`:
the constructor upper-cases the fields before the check. -/
def personLooksValid (last first middle : PyStr) : Bool :=
  checkValidLooking (upperStr last) (upperStr first) (upperStr middle)

/- ===================== RawNameNormalizer ===================== -/

def privlogMarker : PyStr := str "[Privlog:]"

/-- `Person.remove_privlog_info`. -/
def removePrivlogInfo (s : PyStr) : PyStr :=
  match findSub s privlogMarker with
  | some 0 => s.drop 0
  | some n => s.take n
  | none => s

/-- The group alternation `(-Jr|-Sr|-III)` of the suffix regex (tried in
order, anchored at the current position, case-sensitive). -/
def suffixGroupMatch : PyStr → Option PyStr
  | '-' :: 'J' :: 'r' :: _ => some (str "-Jr")
  | '-' :: 'S' :: 'r' :: _ => some (str "-Sr")
  | '-' :: 'I' :: 'I' :: 'I' :: _ => some (str "-III")
  | _ => none

/-- Matching `[A-Z]{1,2}(-Jr|-Sr|-III)`: the greedy `{1,2}` tries two
uppercase letters first and backtracks to one. -/
def initialsThenSuffix : PyStr → Option PyStr
  | [] => none
  | c :: rest =>
    if isUpperB c then
      match rest with
      | [] => none
      | d :: rest2 =>
        if isUpperB d then
          match suffixGroupMatch rest2 with
          | some g => some g
          | none => suffixGroupMatch rest
        else suffixGroupMatch rest
    else none

/-- `re.search(r'^[A-Z][a-z]+-[A-Z]{1,2}(-Jr|-Sr|-III)', s)`, returning the
text of group 1 on success. -/
def regexJrSrIii : PyStr → Option PyStr
  | [] => none
  | c :: cs =>
    if isUpperB c then
      match cs with
      | [] => none
      | d :: ds =>
        if isLowerB d then
          match ds.dropWhile isLowerB with
          | '-' :: rest => initialsThenSuffix rest
          | _ => none
        else none
    else none

/-- `Person.remove_jr_sr_iii`: on a match, `str.replace` deletes every
occurrence of the matched group text, not only the matched span. -/
def removeJrSrIii (s : PyStr) : PyStr :=
  match regexJrSrIii s with
  | some g => replaceAll s g
  | none => s

/- ===================== NameParser ===================== -/

structure HN where
  first : PyStr
  middle : PyStr
  last : PyStr
  suffix : PyStr
  deriving DecidableEq

/-- The abstract generic human-name splitter (the external `HumanName`
library, treated as a capability per the specification). -/
abbrev SplitFn := PyStr → HN

/-- Regex `\([^(]+\)` anchored at position `i`: returns the match length.
The greedy `[^(]+` runs to the last `)` inside the paren-free run, and must
be non-empty. -/
def lastIdxOf (c : Char) (l : PyStr) : Option Nat :=
  match l.reverse.findIdx? (fun x => x == c) with
  | some j => some (l.length - 1 - j)
  | none => none

def parenAt (s : PyStr) (i : Nat) : Option Nat :=
  match s.drop i with
  | '(' :: rest =>
    let run := rest.takeWhile (fun c => c != '(')
    match lastIdxOf ')' run with
    | some k => if 1 ≤ k then some (k + 2) else none
    | none => none
  | _ => none

/-- `re.findall(r'\([^(]+\)', s)`: non-overlapping matches, scanning left to
right. -/
def parenScan (s : PyStr) : Nat → Nat → List PyStr
  | _, 0 => []
  | i, fuel+1 =>
    if s.length ≤ i then []
    else
      match parenAt s i with
      | some len => ((s.drop i).take len) :: parenScan s (i + len) fuel
      | none => parenScan s (i + 1) fuel

def parenMatches (s : PyStr) : List PyStr := parenScan s 0 (s.length + 1)

/-- The normalization part of `Person.parse_raw_name` that runs before
organization extraction: privlog stripping, suffix-token removal,
dash-delimited trailing position, parenthetical extraction. -/
def parsePre (s0 : PyStr) : PyStr × List PyStr :=
  let s1 := removePrivlogInfo s0
  let s2 := removeJrSrIii s1
  let (s3, ex1) :=
    if (findSub s2 (str " - ")).isSome then
      match splitOnSub s2 (str " - ") with
      | [a, b] => (a, [stripWs b])
      | _ => (s2, [])
    else (s2, [])
  let ms := parenMatches s3
  ms.foldl (fun acc m => (replaceAll acc.1 m, acc.2 ++ [stripChars m (str ",#() ")])) (s3, ex1)

def skipSentinel : PyStr := str "@skip@"

def tableLookup (table : List (PyStr × PyStr)) (k : PyStr) : Option PyStr :=
  match table.find? (fun p => p.1 == k) with
  | some p => some p.2
  | none => none

/-- The tail of `Person.parse_raw_name` after organization extraction:
hashtag stripping, dash-joined-initials fixes (the unguarded
`name_raw[-2]` subscript raises `IndexError` on strings shorter than 2),
the generic split, the corpus-specific corrections, suffix handling,
canonicalization through the lookup table and the final weighted counter. -/
def parsePost (split : SplitFn) (table : List (PyStr × PyStr)) (nameRaw0 : PyStr)
    (extracted0 : List PyStr) (count : Int) : Except PyErr ParseOut := do
  let s0 := stripChars nameRaw0 (str " #")
  if s0.length < 2 then throw .indexError
  else do
    let s1 :=
      if s0.getD (s0.length - 2) ' ' == '-'
      then s0.take (s0.length - 2) ++ [' '] ++ s0.drop (s0.length - 1)
      else s0
    let s2 :=
      if decide (2 < s1.length) && (s1.getD (s1.length - 3) ' ' == '-')
      then s1.take (s1.length - 3) ++ [' '] ++ s1.drop (s1.length - 2)
      else s1
    let hn := split s2
    let (f0, l0) :=
      if decide (hn.last.length ≤ 2) && decide (2 < hn.first.length)
      then (hn.last, hn.first) else (hn.first, hn.last)
    let m0 := hn.middle
    let f1 := if decide (f0.length = 2) && (f0.getD 1 ' ' == '.') then f0.take 1 else f0
    let m1 := if decide (m0.length = 2) && (m0.getD 1 ' ' == '.') then m0.take 1 else m0
    let (f2, m2) :=
      if m1.isEmpty && decide (f1.length = 2)
      then (upperStr (f1.take 1), upperStr (f1.drop 1)) else (f1, m1)
    let (f3, m3) :=
      match f2 with
      | a :: '.' :: b :: '.' :: _ => if isAlphaB a && isAlphaB b then ([a], [b]) else (f2, m2)
      | _ => (f2, m2)
    let l1 := capitalizeStr l0
    let f4 := capitalizeStr f3
    let m4 := capitalizeStr m3
    let m5 := if decide (1 < countChar m4 ',') then [] else m4
    let suf0 := hn.suffix
    let suf1 :=
      if decide (20 < suf0.length) && decide (2 < countChar suf0 '.') then [] else suf0
    let extracted1 := if suf1.isEmpty then extracted0 else extracted0 ++ [suf1]
    let cleanOrgs := extracted1.filterMap (fun r =>
      match tableLookup table r with
      | some c => if c == skipSentinel then none else some c
      | none => some r)
    let posC := cleanOrgs.foldl (fun acc p => counterAdd acc (upperStr (removeDots p)) count) []
    pure ⟨f4, m5, l1, posC⟩

/-- `Person.parse_raw_name(.., extract_orgs=False)`. -/
def parseNoOrgs (split : SplitFn) (table : List (PyStr × PyStr)) (s : PyStr) (count : Int) :
    Except PyErr ParseOut :=
  let pre := parsePre s
  parsePost split table pre.1 pre.2 count

/- ===================== OrganizationExtractor ===================== -/

/-- The `while True:` loop of `Person.extract_raw_org_names_from_name` for a
single `(raw_org, clean_org)` table entry.  Keys of length `≥ 3` are removed
unconditionally (recording `clean_org` unless it is the skip sentinel); keys
of length exactly `2` are removed only if the string with the match deleted
still splits into a plausible name; keys of length `≤ 1` make no progress,
so the Python loop diverges — modelled by the fuel running out. -/
def orgWhileLoop (split : SplitFn) (rawOrg cleanOrg : PyStr) :
    PyStr → Nat → Except PyErr (PyStr × List PyStr)
  | _, 0 => throw .diverge
  | s, fuel+1 =>
    match lastHit s rawOrg with
    | none => pure (s, [])
    | some i =>
      if 3 ≤ rawOrg.length then
        let t := s.take i ++ s.drop (i + rawOrg.length)
        match orgWhileLoop split rawOrg cleanOrg t fuel with
        | .ok (u, ps) => .ok (u, (if cleanOrg == skipSentinel then [] else [cleanOrg]) ++ ps)
        | .error e => .error e
      else if rawOrg.length = 2 then
        let t := s.take i ++ s.drop (i + rawOrg.length)
        let hn := split t
        if hn.first.isEmpty && hn.middle.isEmpty then pure (s, [])
        else if hn.last.isEmpty then pure (s, [])
        else
          match orgWhileLoop split rawOrg cleanOrg t fuel with
          | .ok (u, ps) => .ok (u, cleanOrg :: ps)
          | .error e => .error e
      else orgWhileLoop split rawOrg cleanOrg s fuel

def orgPairRun (split : SplitFn) (rawOrg cleanOrg s : PyStr) :
    Except PyErr (PyStr × List PyStr) :=
  orgWhileLoop split rawOrg cleanOrg s (s.length + 1)

/-- The outer `for raw_org, clean_org in RAW_ORG_TO_CLEAN_ORG_DICT.items()`
loop. -/
def orgTableRun (split : SplitFn) : List (PyStr × PyStr) → PyStr →
    Except PyErr (PyStr × List PyStr)
  | [], s => .ok (s, [])
  | e :: rest, s =>
    match orgPairRun split e.1 e.2 s with
    | .error e1 => .error e1
    | .ok r1 =>
      match orgTableRun split rest r1.1 with
      | .error e2 => .error e2
      | .ok r2 => .ok (r2.1, r1.2 ++ r2.2)

/-- `re.search(r',.+$', s)`: leftmost comma followed by at least one more
character (newline-free strings). -/
def commaClauseIdx (s : PyStr) : Option Nat :=
  (List.range s.length).find? (fun i => (s.getD i ' ' == ',') && decide (i + 1 < s.length))

/-- `Person.extract_raw_org_names_from_name`, parameterized by the splitter
and the lookup table. -/
def extractRawOrgNames (split : SplitFn) (table : List (PyStr × PyStr)) (s0 : PyStr) :
    Except PyErr (PyStr × List PyStr) :=
  match orgTableRun split table s0 with
  | .error e => .error e
  | .ok r =>
    let s2 := stripChars r.1 (str ", ")
    if s2.isEmpty then .ok (stripChars s2 (str ", "), r.2)
    else
      match parseNoOrgs split table s2 0 with
      | .error e => .error e
      | .ok p1 =>
        if personLooksValid p1.last p1.first p1.middle then
          .ok (stripChars s2 (str ", "), r.2)
        else
          match commaClauseIdx s2 with
          | none => .ok (stripChars s2 (str ", "), r.2)
          | some i =>
            let pos := stripChars (s2.drop i) (str ", ")
            let s3 := s2.take i
            match parseNoOrgs split table s3 0 with
            | .error e => .error e
            | .ok p2 =>
              if personLooksValid p2.last p2.first p2.middle then
                .ok (stripChars s3 (str ", "), r.2 ++ [pos])
              else
                .ok (stripChars s2 (str ", "), r.2)

/-- `Person.parse_raw_name`. -/
def parseRawName (split : SplitFn) (table : List (PyStr × PyStr)) (s : PyStr) (count : Int)
    (extractOrgs : Bool) : Except PyErr ParseOut :=
  if extractOrgs then
    let pre := parsePre s
    match extractRawOrgNames split table pre.1 with
    | .error e => .error e
    | .ok r => parsePost split table r.1 (pre.2 ++ r.2) count
  else parseNoOrgs split table s count

/- ===================== mostLikelyPosition ===================== -/

def noPositionsMsg : PyStr := str "no positions available"

/-- The 44 literal spaces of the fallback return
`f'                                            {position.upper()}'`. -/
def indentPad : PyStr := List.replicate 44 ' '

/-- The first loop of `Person.most_likely_position` (with
`official_org=True`, the only value the property getter can take). -/
def mlpFirstLoop (table : List (PyStr × PyStr)) : List (PyStr × Int) → Option PyStr
  | [] => none
  | p :: rest =>
    if p.2 = 1 then some noPositionsMsg
    else
      match tableLookup table p.1 with
      | some c => if c == skipSentinel then mlpFirstLoop table rest else some c
      | none => mlpFirstLoop table rest

/-- The fallback loop of `Person.most_likely_position`. -/
def mlpFallback (table : List (PyStr × PyStr)) : List (PyStr × Int) → Option PyStr
  | [] => none
  | p :: rest =>
    if tableLookup table p.1 == some skipSentinel then mlpFallback table rest
    else if p.1.length < 5 then mlpFallback table rest
    else some (indentPad ++ upperStr p.1)

/-- `Person.most_likely_position` (a property; `official_org` is always its
default `True`). -/
def mostLikelyPosition (table : List (PyStr × PyStr)) (positions : Counter) : PyStr :=
  match mlpFirstLoop table (mostCommon positions) with
  | some r => r
  | none =>
    if 0 < positions.length then
      match mlpFallback table (mostCommon positions) with
      | some r => r
      | none => noPositionsMsg
    else noPositionsMsg

/-- Specification-side description of the fallback scan (spec §4.4): first
entry, in descending-weight order, that is not mapped to the skip sentinel
and whose raw string length is at least 5 — amended with the 44-space
indentation the source actually emits. -/
def fallbackSpec (table : List (PyStr × PyStr)) (l : List (PyStr × Int)) : Option PyStr :=
  (l.find? (fun p => !(tableLookup table p.1 == some skipSentinel) && decide (5 ≤ p.1.length))).map
    (fun p => indentPad ++ upperStr p.1)

/- ===================== EntityResolver ===================== -/

structure DjPerson where
  last : PyStr
  first : PyStr
  middle : PyStr
  fullName : PyStr
  mostLikelyOrg : PyStr
  positionsJson : PyStr
  aliasesJson : PyStr
  count : Int
  deriving DecidableEq

/-- JSON string literal (keys free of characters needing escapes). -/
def jsonStrLit (k : PyStr) : PyStr := dq :: (k ++ [dq])

/-- `json.dumps(counter)`: dict literal in insertion order. -/
def jsonDumpsCounter (c : Counter) : PyStr :=
  [lbrace] ++ joinWith (str ", ") (c.map (fun p => jsonStrLit p.1 ++ str ": " ++ intRepr p.2)) ++
    [rbrace]

/-- `match_djangoperson_from_name` of `backend/apps/main/models.py`.  The
Django store is a list of records in its default ordering;
`aliases__contains` is substring containment on the serialized aliases
JSON.  Returns the matched or created record, the updated store, and
whether the multiple-match message was printed. -/
def matchDjangoPersonFromName (split : SplitFn) (table : List (PyStr × PyStr))
    (store : List DjPerson) (parsedName : PyStr) :
    Except PyErr (DjPerson × List DjPerson × Bool) :=
  let nameWithQuotes := dq :: parsedName
  let hits := store.filter (fun p => (findSub p.aliasesJson nameWithQuotes).isSome)
  match hits with
  | [] => do
    let po ← personInit (fun s c => parseRawName split table s c true) (some parsedName)
      [] [] [] none none 1
    let dj : DjPerson := ⟨po.last, po.first, po.middle,
      po.first ++ [' '] ++ po.middle ++ [' '] ++ po.last,
      mostLikelyPosition table po.positions,
      jsonDumpsCounter po.positions, jsonDumpsCounter po.aliases, po.count⟩
    pure (dj, store ++ [dj], false)
  | [p] => pure (p, store, false)
  | p :: _ :: _ => pure (p, store, true)

/-- Resolution of a raw alias as the import loop performs it:
`match_djangoperson_from_name(name.upper())`. -/
def resolveAlias (split : SplitFn) (table : List (PyStr × PyStr)) (store : List DjPerson)
    (rawAlias : PyStr) : Except PyErr (DjPerson × List DjPerson × Bool) :=
  matchDjangoPersonFromName split table store (upperStr rawAlias)

/- ===================== Modelled external data ===================== -/

/-- Modelled from the spec: the organization lookup table
(`clean_org_names.RAW_ORG_TO_CLEAN_ORG_DICT` is repository code not under
`src/`).  A mapping from raw organization spellings to canonical names or
the skip sentinel; the entries are the ones documented by the specification
and exercised by the repository's unit tests. -/
def orgTable : List (PyStr × PyStr) :=
  [(str "PM", str "Philip Morris"),
   (str "BW", str "Brown & Williamson"),
   (str "B&W", str "Brown & Williamson"),
   (str "UNK", skipSentinel),
   (str "COVINGTON AND BURLING", str "Covington & Burling"),
   (str "COVINGTON & BURLING", str "Covington & Burling"),
   (str "JOHNS HOPKINS SCHOOL OF HYGIENE", str "Johns Hopkins University")]

def tokensOf (p : PyStr) : List PyStr := (splitOnSub p [' ']).filter (fun t => !t.isEmpty)

/-- Modelled from the spec: a concrete instance of the abstract generic
human-name splitter (the external `nameparser.HumanName` dependency, absent
from `src/`), following the specification's "Last, First Middle Suffix"
comma/space heuristics: with no comma, the first token is the first name and
the last token the last name (a single token is a first name only); with a
comma, the text before the first comma is the last name and the remaining
tokens are first and middle names.  Empty comma pieces are ignored, as the
library ignores them. -/
def specSplit (s : PyStr) : HN :=
  let pieces := ((splitOnSub s [',']).map stripWs).filter (fun t => !t.isEmpty)
  match pieces with
  | [] => ⟨[], [], [], []⟩
  | [p] =>
    match tokensOf p with
    | [] => ⟨[], [], [], []⟩
    | [t] => ⟨t, [], [], []⟩
    | t :: ts => ⟨t, joinWith [' '] ts.dropLast, (ts.getLast?).getD [], []⟩
  | p :: q :: _ =>
    match tokensOf q with
    | [] => ⟨[], [], p, []⟩
    | t :: ts => ⟨t, joinWith [' '] ts, p, []⟩

/- ===================== General lemmas ===================== -/

theorem matchWordAt_nil (pat : PyStr) (i : Nat) : matchWordAt [] pat i = false := by
  cases pat with
  | nil => simp [matchWordAt, boundaryAtB, wordAtB]
  | cons a t => simp [matchWordAt, boundaryAtB, wordAtB]

theorem nextHitFrom_nil (pat : PyStr) (start : Nat) : nextHitFrom [] pat start = none := by
  simp [nextHitFrom, List.find?_eq_none, matchWordAt_nil]

theorem lastHit_nil (pat : PyStr) : lastHit [] pat = none := by
  simp [lastHit, lastHitAux, nextHitFrom_nil]

theorem orgPairRun_nil (split : SplitFn) (ro co : PyStr) :
    orgPairRun split ro co [] = .ok ([], []) := by
  simp [orgPairRun, orgWhileLoop, lastHit_nil]
  rfl

theorem orgTableRun_nil (split : SplitFn) (table : List (PyStr × PyStr)) :
    orgTableRun split table [] = .ok ([], []) := by
  induction table with
  | nil => rfl
  | cons e rest ih => simp [orgTableRun, orgPairRun_nil, ih]

theorem extractRawOrgNames_nil (split : SplitFn) (table : List (PyStr × PyStr)) :
    extractRawOrgNames split table [] = .ok ([], []) := by
  simp [extractRawOrgNames, orgTableRun_nil]
  rfl

/- ===================== Claim C2 ===================== -/

/-- Claim C2 (code_bug evidence): parsing is not total.  On the empty string
— whatever the splitter, the lookup table, the weight and the
`extract_orgs` flag — `parse_raw_name` reaches the unguarded subscript
`name_raw[-2]` and raises `IndexError`, instead of degrading to empty
fields as the specification requires. -/
theorem parse_raw_name_raises_on_empty (split : SplitFn) (table : List (PyStr × PyStr))
    (count : Int) (extractOrgs : Bool) :
    parseRawName split table (str "") count extractOrgs = .error .indexError := by
  cases extractOrgs with
  | false => rfl
  | true =>
    have h : parsePre (str "") = ([], []) := rfl
    simp [parseRawName, h, extractRawOrgNames_nil]
    rfl

/- ===================== Claim C3 ===================== -/

/-- Claim C3 (code_bug evidence): construction from a raw string with an
explicit plain-collection `positions` argument does not combine both
sources.  Parsing `"TEMKO SL, COVINGTON AND BURLING"` alone yields the
position `{COVINGTON & BURLING: 1}` (first conjunct), yet the constructor
invoked with that raw string and the explicit positions list `["FOO"]`
stores positions `{FOO: 1}` only (second conjunct) — the duplicated
normalization block of `Person.__init__` rebuilds `self.positions` from the
plain argument and discards the parsed positions, whereas the claimed
weighted-add union would also contain the parsed entry (third conjunct).
The aliases default `{uppercased raw string: count}` is visible in the
second conjunct. -/
theorem person_init_discards_parsed_positions :
    (parseRawName specSplit orgTable (str "TEMKO SL, COVINGTON AND BURLING") 1 true).map
        ParseOut.positions = .ok [(str "COVINGTON & BURLING", 1)] ∧
    personInit (fun s c => parseRawName specSplit orgTable s c true)
        (some (str "TEMKO SL, COVINGTON AND BURLING")) [] [] []
        (some (.plain [str "FOO"])) none 1
      = .ok ⟨str "TEMKO", str "S", str "L", [(str "FOO", 1)],
          [(str "TEMKO SL, COVINGTON AND BURLING", 1)], 1⟩ ∧
    [(str "FOO", (1 : Int))] ≠
      counterMerge [(str "FOO", 1)] [(str "COVINGTON & BURLING", 1)] := by
  refine ⟨by decide, by decide, by decide⟩

/- ===================== Claim C5 ===================== -/

/-- Claim C5 (code_bug evidence): alias resolution can raise.  Resolving the
raw alias `"A"` against an empty store finds no match, so
`match_djangoperson_from_name` constructs `Person(name_raw='A')`, whose
parse raises `IndexError` at the unguarded `name_raw[-2]` subscript — the
claimed "never raises" behaviour fails on the record-creation path. -/
theorem resolve_alias_raises_on_short_alias :
    resolveAlias specSplit orgTable [] (str "A") = .error .indexError := by
  decide

/- ===================== Claim C8 ===================== -/

/-- Claim C8: whenever the single highest-weight entry of the positions
multiset has weight exactly 1 (the head of the descending-weight
`most_common()` ordering), `most_likely_position` returns the literal
string `"no positions available"`, for every lookup table and however many
distinct positions exist. -/
theorem mlp_weight_one_no_positions (table : List (PyStr × PyStr)) (ps : Counter)
    (k : PyStr) (h : (mostCommon ps).head? = some (k, 1)) :
    mostLikelyPosition table ps = noPositionsMsg := by
  unfold mostLikelyPosition
  cases hmc : mostCommon ps with
  | nil => rw [hmc] at h; simp at h
  | cons p rest =>
    rw [hmc] at h
    simp only [List.head?_cons, Option.some.injEq] at h
    subst h
    simp [mlpFirstLoop]

/-- Claim C8 witness: a concrete two-position multiset whose top weight is 1. -/
theorem mlp_weight_one_no_positions_witness :
    mostLikelyPosition orgTable [(str "ABCDE", 1), (str "FGHIJ", 1)] = noPositionsMsg :=
  mlp_weight_one_no_positions orgTable [(str "ABCDE", 1), (str "FGHIJ", 1)]
    (str "ABCDE") (by decide)

/- ===================== Claim C9 ===================== -/

theorem findSubAux_eq_some (pat : PyStr) :
    ∀ (s : PyStr) (i k : Nat), pat.isPrefixOf (s.drop k) = true →
      (∀ j, j < k → pat.isPrefixOf (s.drop j) = false) →
      findSubAux pat s i = some (i + k) := by
  intro s
  induction s with
  | nil =>
    intro i k h1 h2
    cases k with
    | zero => simp_all [findSubAux]
    | succ k' =>
      exfalso
      have h0 := h2 0 (Nat.succ_pos k')
      simp [List.drop_nil] at h1 h0
      subst h1
      simp [List.isPrefixOf] at h0
  | cons c t ih =>
    intro i k h1 h2
    cases k with
    | zero =>
      simp only [List.drop_zero] at h1
      simp [findSubAux, h1]
    | succ k' =>
      have h0 : pat.isPrefixOf ((c :: t).drop 0) = false := h2 0 (Nat.succ_pos k')
      simp only [List.drop_zero] at h0
      have step : findSubAux pat (c :: t) i = findSubAux pat t (i + 1) := by
        simp [findSubAux, h0]
      rw [step, ih (i + 1) k' h1 (fun j hj => h2 (j + 1) (Nat.succ_lt_succ hj))]
      congr 1
      omega

theorem findSubAux_eq_none (pat : PyStr) :
    ∀ (s : PyStr) (i : Nat), (∀ j, pat.isPrefixOf (s.drop j) = false) →
      findSubAux pat s i = none := by
  intro s
  induction s with
  | nil =>
    intro i h
    have h0 := h 0
    simp only [List.drop_nil] at h0
    simp [findSubAux, h0]
  | cons c t ih =>
    intro i h
    have h0 := h 0
    simp only [List.drop_zero] at h0
    simp only [findSubAux, h0, Bool.false_eq_true, if_false]
    exact ih (i + 1) (fun j => h (j + 1))

/-- Claim C9: log-tag stripping.  If the fixed marker `"[Privlog:]"` is a
prefix of the string (first occurrence at index 0) the normalizer returns
the string unchanged (the corpus quirk is reproduced); if the first
occurrence is at a positive index `k` it returns exactly the first `k`
characters (everything strictly before the marker); if the marker never
occurs the string is returned unchanged. -/
theorem remove_privlog_spec :
    (∀ s : PyStr, privlogMarker.isPrefixOf s = true → removePrivlogInfo s = s) ∧
    (∀ (s : PyStr) (k : Nat), 0 < k → privlogMarker.isPrefixOf (s.drop k) = true →
      (∀ j, j < k → privlogMarker.isPrefixOf (s.drop j) = false) →
      removePrivlogInfo s = s.take k) ∧
    (∀ s : PyStr, (∀ j, privlogMarker.isPrefixOf (s.drop j) = false) →
      removePrivlogInfo s = s) := by
  refine ⟨?_, ?_, ?_⟩
  · intro s h
    have hf : findSub s privlogMarker = some 0 := by
      have := findSubAux_eq_some privlogMarker s 0 0 (by simpa using h)
        (fun j hj => absurd hj (Nat.not_lt_zero j))
      simpa [findSub] using this
    simp [removePrivlogInfo, hf]
  · intro s k hk h1 h2
    have hf : findSub s privlogMarker = some k := by
      have := findSubAux_eq_some privlogMarker s 0 k h1 h2
      simpa [findSub] using this
    cases k with
    | zero => omega
    | succ k' => simp [removePrivlogInfo, hf]
  · intro s h
    have hf : findSub s privlogMarker = none := by
      have := findSubAux_eq_none privlogMarker s 0 h
      simpa [findSub] using this
    simp [removePrivlogInfo, hf]

/-- Claim C9 witness: the marker at positive index 2 truncates to the first
two characters. -/
theorem remove_privlog_spec_witness :
    removePrivlogInfo (str "ab[Privlog:]cd") = (str "ab[Privlog:]cd").take 2 :=
  remove_privlog_spec.2.1 (str "ab[Privlog:]cd") 2 (by decide) (by decide)
    (by decide)

/- ===================== Claim C4 ===================== -/

theorem insSorted_perm (a : PyStr × Int) (l : List (PyStr × Int)) :
    List.Perm (insSorted a l) (a :: l) := by
  induction l with
  | nil => simp [insSorted]
  | cons b bs ih =>
    by_cases h : geCntB a b = true
    · simp [insSorted, h]
    · simp only [insSorted, h, Bool.false_eq_true, if_false]
      exact ((ih.cons b).trans (List.Perm.swap a b bs))

theorem mostCommon_perm (c : Counter) : List.Perm (mostCommon c) c := by
  induction c with
  | nil => simp [mostCommon]
  | cons p rest ih =>
    have : mostCommon (p :: rest) = insSorted p (mostCommon rest) := rfl
    rw [this]
    exact (insSorted_perm p (mostCommon rest)).trans (ih.cons p)

theorem mlpFirstLoop_none (table : List (PyStr × PyStr)) :
    ∀ l : List (PyStr × Int),
      (∀ p ∈ l, tableLookup table p.1 = none ∨ tableLookup table p.1 = some skipSentinel) →
      (∀ p ∈ l, p.2 ≠ 1) →
      mlpFirstLoop table l = none := by
  intro l
  induction l with
  | nil => intro _ _; rfl
  | cons p rest ih =>
    intro h1 h2
    have hp2 : p.2 ≠ 1 := h2 p (List.mem_cons_self p rest)
    have hrec := ih (fun q hq => h1 q (List.mem_cons_of_mem p hq))
      (fun q hq => h2 q (List.mem_cons_of_mem p hq))
    rcases h1 p (List.mem_cons_self p rest) with hl | hl
    · simp [mlpFirstLoop, hp2, hl, hrec]
    · simp [mlpFirstLoop, hp2, hl, hrec]

theorem mlpFallback_eq_spec (table : List (PyStr × PyStr)) :
    ∀ l : List (PyStr × Int), mlpFallback table l = fallbackSpec table l := by
  intro l
  induction l with
  | nil => rfl
  | cons p rest ih =>
    by_cases hskip : tableLookup table p.1 = some skipSentinel
    · have hb : (tableLookup table p.1 == some skipSentinel) = true := by
        simp [hskip]
      simp [mlpFallback, fallbackSpec, hb, ih, List.find?_cons]
    · have hb : (tableLookup table p.1 == some skipSentinel) = false := by
        simpa using hskip
      by_cases hlen : p.1.length < 5
      · have hlen5 : decide (5 ≤ p.1.length) = false := by
          simp; omega
        simp [mlpFallback, fallbackSpec, hb, hlen, hlen5, ih, List.find?_cons]
      · have hlen5 : decide (5 ≤ p.1.length) = true := by
          simp; omega
        simp [mlpFallback, fallbackSpec, hb, hlen, hlen5, List.find?_cons]

/-- Claim C4 (amended): when no entry of the positions multiset qualifies
through the lookup table (each is absent or mapped to the skip sentinel)
*and no entry has weight exactly 1* (the weight-1 guard of the first loop
would otherwise return early), `most_likely_position` returns the first
entry of the descending-weight order that is not mapped to the skip
sentinel and has raw length at least 5, upper-cased *and prefixed by 44
literal spaces*; if no such entry exists it returns
`"no positions available"`. -/
theorem mlp_fallback_amended (table : List (PyStr × PyStr)) (ps : Counter)
    (h1 : ∀ p ∈ ps, tableLookup table p.1 = none ∨ tableLookup table p.1 = some skipSentinel)
    (h2 : ∀ p ∈ ps, p.2 ≠ 1) :
    mostLikelyPosition table ps = (fallbackSpec table (mostCommon ps)).getD noPositionsMsg := by
  have hperm := mostCommon_perm ps
  have h1m : ∀ p ∈ mostCommon ps, tableLookup table p.1 = none ∨
      tableLookup table p.1 = some skipSentinel := fun p hp => h1 p (hperm.mem_iff.mp hp)
  have h2m : ∀ p ∈ mostCommon ps, p.2 ≠ 1 := fun p hp => h2 p (hperm.mem_iff.mp hp)
  unfold mostLikelyPosition
  rw [mlpFirstLoop_none table (mostCommon ps) h1m h2m]
  by_cases hps : 0 < ps.length
  · rw [mlpFallback_eq_spec table (mostCommon ps)]
    simp only [hps, if_true]
    cases fallbackSpec table (mostCommon ps) with
    | none => rfl
    | some r => rfl
  · have hnil : ps = [] := by
      cases ps with
      | nil => rfl
      | cons a l => simp at hps
    subst hnil
    rfl

/-- Claim C4 counterexample: with the modelled lookup table (which does not
contain `"ABCDEFG"`), a single position `{ABCDEFG: 2}` makes the first loop
fail and the fallback fire, but the value returned is the upper-cased entry
prefixed by 44 spaces — not "exactly the first entry … upper-cased" as the
claim states; and when the top weight is 1 the fallback is never reached at
all, `"no positions available"` being returned instead of the qualifying
entry. -/
theorem mlp_fallback_counterexample :
    mostLikelyPosition orgTable [(str "ABCDEFG", 2)] ≠ upperStr (str "ABCDEFG") ∧
    mostLikelyPosition orgTable [(str "ABCDEFG", 2)] = indentPad ++ str "ABCDEFG" ∧
    mostLikelyPosition orgTable [(str "ABCDEFG", 1)] ≠ upperStr (str "ABCDEFG") ∧
    mostLikelyPosition orgTable [(str "ABCDEFG", 1)] = noPositionsMsg := by
  refine ⟨by decide, by decide, by decide, by decide⟩

/-- Claim C4 witness: the amended theorem applied to the concrete multiset
`{ABCDEFG: 2}` and the modelled table. -/
theorem mlp_fallback_amended_witness :
    mostLikelyPosition orgTable [(str "ABCDEFG", 2)] =
      (fallbackSpec orgTable (mostCommon [(str "ABCDEFG", 2)])).getD noPositionsMsg :=
  mlp_fallback_amended orgTable [(str "ABCDEFG", 2)]
    (by decide) (by decide)

/- ===================== Claim C7 ===================== -/

theorem dropWhile_lower_append (cs t : PyStr) (h : ∀ x ∈ cs, isLowerB x = true) :
    (cs ++ '-' :: t).dropWhile isLowerB = '-' :: t := by
  induction cs with
  | nil =>
    have hdash : isLowerB '-' = false := by decide
    simp [List.dropWhile_cons, hdash]
  | cons a as ih =>
    have ha : isLowerB a = true := h a (List.mem_cons_self a as)
    simp only [List.cons_append, List.dropWhile_cons, ha, if_true]
    exact ih (fun x hx => h x (List.mem_cons_of_mem a hx))

theorem suffixGroupMatch_self (g rest : PyStr)
    (hg : g = str "-Jr" ∨ g = str "-Sr" ∨ g = str "-III") :
    suffixGroupMatch (g ++ rest) = some g := by
  rcases hg with rfl | rfl | rfl <;> rfl

theorem initialsThenSuffix_of (i g rest : PyStr)
    (hi1 : i.length = 1 ∨ i.length = 2) (hi2 : ∀ x ∈ i, isUpperB x = true)
    (hg : g = str "-Jr" ∨ g = str "-Sr" ∨ g = str "-III") :
    initialsThenSuffix (i ++ (g ++ rest)) = some g := by
  have hgDash : ∃ gt, g = '-' :: gt := by
    rcases hg with rfl | rfl | rfl
    · exact ⟨str "Jr", rfl⟩
    · exact ⟨str "Sr", rfl⟩
    · exact ⟨str "III", rfl⟩
  obtain ⟨gt, hgt⟩ := hgDash
  rcases hi1 with h1 | h2
  · obtain ⟨u, rfl⟩ := List.length_eq_one.mp h1
    have hu : isUpperB u = true := hi2 u (List.mem_singleton_self u)
    have hdash : isUpperB '-' = false := by decide
    rw [hgt]
    simp only [List.singleton_append, List.cons_append, List.nil_append,
      initialsThenSuffix, hu, if_true, hdash, Bool.false_eq_true, if_false]
    rw [show ('-' :: (gt ++ rest)) = (('-' :: gt) ++ rest) from rfl, ← hgt]
    exact suffixGroupMatch_self g rest hg
  · obtain ⟨u, v, rfl⟩ := List.length_eq_two.mp h2
    have hu : isUpperB u = true := hi2 u (by simp)
    have hv : isUpperB v = true := hi2 v (by simp)
    simp only [List.cons_append, List.nil_append, initialsThenSuffix, hu, hv, if_true]
    rw [suffixGroupMatch_self g rest hg]

theorem regexJrSrIii_of (c : Char) (cs i g rest : PyStr)
    (hc : isUpperB c = true) (hcs : cs ≠ []) (hlow : ∀ x ∈ cs, isLowerB x = true)
    (hi1 : i.length = 1 ∨ i.length = 2) (hi2 : ∀ x ∈ i, isUpperB x = true)
    (hg : g = str "-Jr" ∨ g = str "-Sr" ∨ g = str "-III") :
    regexJrSrIii (c :: (cs ++ '-' :: (i ++ (g ++ rest)))) = some g := by
  cases cs with
  | nil => exact absurd rfl hcs
  | cons d ds =>
    have hd : isLowerB d = true := hlow d (List.mem_cons_self d ds)
    have hds : (ds ++ '-' :: (i ++ (g ++ rest))).dropWhile isLowerB
        = '-' :: (i ++ (g ++ rest)) :=
      dropWhile_lower_append ds (i ++ (g ++ rest))
        (fun x hx => hlow x (List.mem_cons_of_mem d hx))
    simp only [regexJrSrIii, hc, if_true, List.cons_append, hd, hds]
    exact initialsThenSuffix_of i g rest hi1 hi2 hg

/-- Claim C7 (amended): on a string matching the anchored pattern
"capitalized word, dash, 1-2 uppercase letters, dash, one of Jr/Sr/III"
(case-sensitive), the normalizer deletes *every occurrence* of the matched
`-Jr`/`-Sr`/`-III` group substring from the whole string (Python's
`str.replace` removes all occurrences, not only the matched span);
non-matching strings are returned unchanged. -/
theorem remove_jr_sr_iii_amended :
    (∀ (c : Char) (cs i g rest : PyStr), isUpperB c = true → cs ≠ [] →
      (∀ x ∈ cs, isLowerB x = true) →
      (i.length = 1 ∨ i.length = 2) → (∀ x ∈ i, isUpperB x = true) →
      (g = str "-Jr" ∨ g = str "-Sr" ∨ g = str "-III") →
      removeJrSrIii (c :: (cs ++ '-' :: (i ++ (g ++ rest)))) =
        replaceAll (c :: (cs ++ '-' :: (i ++ (g ++ rest)))) g) ∧
    (∀ s : PyStr, regexJrSrIii s = none → removeJrSrIii s = s) := by
  constructor
  · intro c cs i g rest hc hcs hlow hi1 hi2 hg
    unfold removeJrSrIii
    rw [regexJrSrIii_of c cs i g rest hc hcs hlow hi1 hi2 hg]
  · intro s h
    unfold removeJrSrIii
    rw [h]

/-- Claim C7 counterexample: on `"Chumney-RD-Jr-Jr"` the matched group is
`-Jr`, and `str.replace` deletes both occurrences, yielding `"Chumney-RD"`
— not `"Chumney-RD-Jr"`, which deleting only the matched group and
preserving the rest verbatim would give. -/
theorem remove_jr_sr_iii_counterexample :
    removeJrSrIii (str "Chumney-RD-Jr-Jr") ≠ str "Chumney-RD-Jr" ∧
    removeJrSrIii (str "Chumney-RD-Jr-Jr") = str "Chumney-RD" := by
  refine ⟨by decide, by decide⟩

/-- Claim C7 witness: the amended theorem applied to the doctest input
`"Chumney-RD-Jr, oeuo"`, decomposed as required, together with the
evaluation of the resulting replacement. -/
theorem remove_jr_sr_iii_amended_witness :
    removeJrSrIii ('C' :: (str "humney" ++ '-' :: (str "RD" ++ (str "-Jr" ++ str ", oeuo")))) =
      replaceAll ('C' :: (str "humney" ++ '-' :: (str "RD" ++ (str "-Jr" ++ str ", oeuo"))))
        (str "-Jr") ∧
    replaceAll ('C' :: (str "humney" ++ '-' :: (str "RD" ++ (str "-Jr" ++ str ", oeuo"))))
        (str "-Jr") = str "Chumney-RD, oeuo" :=
  ⟨remove_jr_sr_iii_amended.1 'C' (str "humney") (str "RD") (str "-Jr") (str ", oeuo")
      (by decide) (by decide) (by decide) (by decide) (by decide) (by decide),
    by decide⟩

/- ===================== Claim C6 ===================== -/

theorem lastHitAux_matches (s pat : PyStr) :
    ∀ (fuel start : Nat) (acc : Option Nat) (j : Nat),
      (∀ k, acc = some k → matchWordAt s pat k = true) →
      lastHitAux s pat start acc fuel = some j → matchWordAt s pat j = true := by
  intro fuel
  induction fuel with
  | zero => intro start acc j hacc h; exact hacc j h
  | succ f ih =>
    intro start acc j hacc h
    rw [lastHitAux] at h
    cases hn : nextHitFrom s pat start with
    | none => rw [hn] at h; exact hacc j h
    | some m =>
      rw [hn] at h
      have hm : matchWordAt s pat m = true := by
        have hp := List.find?_some hn
        exact (Bool.and_eq_true _ _ |>.mp hp).2
      exact ih _ _ j (fun _ hk => by rw [← Option.some.inj hk]; exact hm) h

theorem lastHit_matches (s pat : PyStr) (i : Nat) (h : lastHit s pat = some i) :
    matchWordAt s pat i = true :=
  lastHitAux_matches s pat (s.length + 1) 0 none i (fun _ hk => Option.noConfusion hk) h

theorem matchWordAt_bound (s pat : PyStr) (i : Nat) (hp : pat ≠ [])
    (h : matchWordAt s pat i = true) : i + pat.length ≤ s.length := by
  unfold matchWordAt at h
  have h1 := (Bool.and_eq_true _ _ |>.mp (Bool.and_eq_true _ _ |>.mp h).1).1
  have heq : (s.drop i).take pat.length = pat := by
    exact beq_iff_eq.mp h1
  have hlen := congrArg List.length heq
  simp [List.length_take, List.length_drop] at hlen
  have hpos : 0 < pat.length := List.length_pos.mpr hp
  omega

theorem removal_length (s pat : PyStr) (i : Nat) (hb : i + pat.length ≤ s.length) :
    (s.take i ++ s.drop (i + pat.length)).length = s.length - pat.length := by
  simp [List.length_append, List.length_take, List.length_drop]
  omega

theorem orgWhileLoop_stuck (split : SplitFn) (ro co s : PyStr) (i : Nat)
    (hlen : ro.length ≤ 1) (hhit : lastHit s ro = some i) :
    ∀ fuel, orgWhileLoop split ro co s fuel = .error .diverge := by
  intro fuel
  induction fuel with
  | zero => rfl
  | succ f ih =>
    rw [orgWhileLoop, hhit]
    have h3 : ¬ 3 ≤ ro.length := by omega
    have h2 : ¬ ro.length = 2 := by omega
    simp only [h3, h2, if_false]
    exact ih

theorem orgWhileLoop_fuel (split : SplitFn) (ro co : PyStr) :
    ∀ (n : Nat) (s : PyStr) (f : Nat), s.length ≤ n → s.length + 1 ≤ f →
      orgWhileLoop split ro co s f = orgWhileLoop split ro co s (s.length + 1) := by
  intro n
  induction n with
  | zero =>
    intro s f hs hf
    have hnil : s = [] := List.length_eq_zero.mp (Nat.le_zero.mp hs)
    subst hnil
    obtain ⟨f', rfl⟩ : ∃ f', f = f' + 1 := ⟨f - 1, by omega⟩
    rw [orgWhileLoop, orgWhileLoop, lastHit_nil]
  | succ n ih =>
    intro s f hs hf
    obtain ⟨f', rfl⟩ : ∃ f', f = f' + 1 := ⟨f - 1, by omega⟩
    rw [orgWhileLoop]
    conv_rhs => rw [orgWhileLoop]
    cases hhit : lastHit s ro with
    | none => rfl
    | some i =>
      have hflen : s.length ≤ f' := by omega
      by_cases h3 : 3 ≤ ro.length
      · have hro : ro ≠ [] := by
          intro hh; rw [hh] at h3; simp at h3
        have hb := matchWordAt_bound s ro i hro (lastHit_matches s ro i hhit)
        have ht := removal_length s ro i hb
        simp only [h3, if_true]
        have htn : (s.take i ++ s.drop (i + ro.length)).length ≤ n := by omega
        rw [ih (s.take i ++ s.drop (i + ro.length)) f' htn (by omega),
          ih (s.take i ++ s.drop (i + ro.length)) s.length htn (by omega)]
      · by_cases h2 : ro.length = 2
        · have hro : ro ≠ [] := by
            intro hh; rw [hh] at h2; simp at h2
          have hb := matchWordAt_bound s ro i hro (lastHit_matches s ro i hhit)
          have ht := removal_length s ro i hb
          simp only [if_neg h3, if_pos h2]
          have htn : (s.take i ++ s.drop (i + ro.length)).length ≤ n := by omega
          rw [ih (s.take i ++ s.drop (i + ro.length)) f' htn (by omega),
            ih (s.take i ++ s.drop (i + ro.length)) s.length htn (by omega)]
        · have hs1 : ro.length ≤ 1 := by omega
          simp only [h3, h2, if_false]
          rw [orgWhileLoop_stuck split ro co s i hs1 hhit f',
            orgWhileLoop_stuck split ro co s i hs1 hhit s.length]

/-- Claim C6: in the table-driven extraction loop, for a lookup-table entry
whose raw spelling has length exactly 2 and the (last) whole-word match of
it in the working string: if re-splitting the string with the match removed
yields neither a non-empty first nor a non-empty middle name, or yields an
empty last name, the match is abandoned for that raw spelling — the string
is returned unchanged with nothing recorded; otherwise the removal is
accepted, the entry's canonical organization is recorded, and the loop
continues on the shortened string. -/
theorem org_two_letter_step (split : SplitFn) (ro co s : PyStr) (i : Nat)
    (hlen : ro.length = 2) (hhit : lastHit s ro = some i) :
    ((((split (s.take i ++ s.drop (i + ro.length))).first = [] ∧
       (split (s.take i ++ s.drop (i + ro.length))).middle = []) ∨
      (split (s.take i ++ s.drop (i + ro.length))).last = []) →
      orgPairRun split ro co s = .ok (s, [])) ∧
    (¬ ((((split (s.take i ++ s.drop (i + ro.length))).first = [] ∧
         (split (s.take i ++ s.drop (i + ro.length))).middle = []) ∨
        (split (s.take i ++ s.drop (i + ro.length))).last = [])) →
      orgPairRun split ro co s =
        (orgPairRun split ro co (s.take i ++ s.drop (i + ro.length))).map
          (fun r => (r.1, co :: r.2))) := by
  have h3 : ¬ 3 ≤ ro.length := by omega
  have hro : ro ≠ [] := by
    intro hh; rw [hh] at hlen; simp at hlen
  have hb := matchWordAt_bound s ro i hro (lastHit_matches s ro i hhit)
  have ht := removal_length s ro i hb
  constructor
  · intro habandon
    unfold orgPairRun
    rw [orgWhileLoop, hhit]
    simp only [if_neg h3, if_pos hlen]
    rcases habandon with ⟨hf, hm⟩ | hl
    · have hcond : ((split (s.take i ++ s.drop (i + ro.length))).first.isEmpty &&
          (split (s.take i ++ s.drop (i + ro.length))).middle.isEmpty) = true := by
        simp [hf, hm]
      simp only [if_pos hcond]
      rfl
    · by_cases hfm : ((split (s.take i ++ s.drop (i + ro.length))).first.isEmpty &&
          (split (s.take i ++ s.drop (i + ro.length))).middle.isEmpty) = true
      · simp only [if_pos hfm]
        rfl
      · simp only [if_neg hfm]
        have hle : (split (s.take i ++ s.drop (i + ro.length))).last.isEmpty = true := by
          simp [hl]
        simp only [if_pos hle]
        rfl
  · intro haccept
    push_neg at haccept
    obtain ⟨hfm, hl⟩ := haccept
    have hfmB : ¬ (((split (s.take i ++ s.drop (i + ro.length))).first.isEmpty &&
        (split (s.take i ++ s.drop (i + ro.length))).middle.isEmpty) = true) := by
      rcases Decidable.em ((split (s.take i ++ s.drop (i + ro.length))).first = []) with hf | hf
      · have hm := hfm hf
        simp [hf, hm]
      · simp [hf]
    have hlB : ¬ ((split (s.take i ++ s.drop (i + ro.length))).last.isEmpty = true) := by
      simp [hl]
    unfold orgPairRun
    rw [orgWhileLoop, hhit]
    simp only [if_neg h3, if_pos hlen, if_neg hfmB, if_neg hlB]
    have hfuel : orgWhileLoop split ro co (s.take i ++ s.drop (i + ro.length)) s.length =
        orgWhileLoop split ro co (s.take i ++ s.drop (i + ro.length))
          ((s.take i ++ s.drop (i + ro.length)).length + 1) :=
      orgWhileLoop_fuel split ro co (s.take i ++ s.drop (i + ro.length)).length
        (s.take i ++ s.drop (i + ro.length)) s.length (Nat.le_refl _) (by omega)
    rw [hfuel]
    cases orgWhileLoop split ro co (s.take i ++ s.drop (i + ro.length))
        ((s.take i ++ s.drop (i + ro.length)).length + 1) with
    | ok r => rfl
    | error e => rfl

/-- Claim C6 witness: the spec's own example — removing the 2-letter org
`"PM"` from `"TEMKO PM"` leaves `"TEMKO "`, which splits with an empty last
name, so the match is abandoned: the string is unchanged and nothing is
recorded. -/
theorem org_two_letter_step_witness :
    orgPairRun specSplit (str "PM") (str "Philip Morris") (str "TEMKO PM") =
      .ok (str "TEMKO PM", []) :=
  (org_two_letter_step specSplit (str "PM") (str "Philip Morris") (str "TEMKO PM") 6
    (by decide) (by decide)).1 (by decide)

/- ===================== Claim C10 ===================== -/

theorem caseTable_values_not_keys :
    ∀ p ∈ caseTable, ∀ q ∈ caseTable, (q.1 == p.2) = false := by
  decide

theorem upperChar_idem (c : Char) : upperChar (upperChar c) = upperChar c := by
  rcases h : caseTable.find? (fun p => p.1 == c) with _ | p
  · simp only [upperChar, h]
  · have hp : p ∈ caseTable := List.mem_of_find?_eq_some h
    have hnone : caseTable.find? (fun q => q.1 == p.2) = none :=
      List.find?_eq_none.mpr (fun q hq => by
        simp [caseTable_values_not_keys p hp q hq])
    simp only [upperChar, h, hnone]

theorem upperStr_idem (s : PyStr) : upperStr (upperStr s) = upperStr s := by
  simp only [upperStr, List.map_map]
  exact List.map_congr_left (fun c _ => upperChar_idem c)

theorem personInit_none (parse : PyStr → Int → Except PyErr ParseOut)
    (l f m : PyStr) (pa aa : Option CounterArg) (cnt : Int) :
    personInit parse none l f m pa aa cnt =
      .ok ⟨upperStr l, upperStr f, upperStr m, posArgValue pa cnt, aliasArgValue aa cnt, cnt⟩ := by
  rcases pa with _ | pc <;> [skip; rcases pc with c | pl] <;>
    rcases aa with _ | ac <;> first
      | rfl
      | (rcases ac with c2 | al <;> rfl)

/-- Claim C10: for a record constructed from explicit fields (no raw name,
no document sets), `copy()` produces a record with identical last, first
and middle strings, identical positions and aliases counters and identical
count — indeed the very same record value — and the copy compares equal to
the original under the record equality. -/
theorem person_copy_roundtrip (parse parse2 : PyStr → Int → Except PyErr ParseOut)
    (l f m : PyStr) (pa aa : Option CounterArg) (cnt : Int) (p q : Person)
    (hp : personInit parse none l f m pa aa cnt = .ok p)
    (hq : personCopy parse2 p = .ok q) :
    (q.last = p.last ∧ q.first = p.first ∧ q.middle = p.middle ∧
     q.positions = p.positions ∧ q.aliases = p.aliases ∧ q.count = p.count) ∧
    personBeq q p = true := by
  rw [personInit_none] at hp
  have hpv : p = ⟨upperStr l, upperStr f, upperStr m, posArgValue pa cnt,
      aliasArgValue aa cnt, cnt⟩ := by
    exact (Except.ok.inj hp).symm
  rw [personCopy, personInit_none] at hq
  have hqv : q = ⟨upperStr p.last, upperStr p.first, upperStr p.middle,
      p.positions, p.aliases, p.count⟩ := by
    exact (Except.ok.inj hq).symm
  have hqp : q = p := by
    rw [hqv, hpv]
    simp [upperStr_idem]
  subst hqp
  refine ⟨⟨rfl, rfl, rfl, rfl, rfl, rfl⟩, ?_⟩
  simp [personBeq]

/-- Claim C10 witness: a concrete explicit-field record and its copy. -/
theorem person_copy_roundtrip_witness :
    ((⟨str "TEMKO", str "S", str "L", [(str "JR", 1)], [(str "TEMKO SL JR", 1)], 1⟩ : Person).last
        = (⟨str "TEMKO", str "S", str "L", [(str "JR", 1)], [(str "TEMKO SL JR", 1)], 1⟩ : Person).last ∧
      (⟨str "TEMKO", str "S", str "L", [(str "JR", 1)], [(str "TEMKO SL JR", 1)], 1⟩ : Person).first
        = (⟨str "TEMKO", str "S", str "L", [(str "JR", 1)], [(str "TEMKO SL JR", 1)], 1⟩ : Person).first ∧
      (⟨str "TEMKO", str "S", str "L", [(str "JR", 1)], [(str "TEMKO SL JR", 1)], 1⟩ : Person).middle
        = (⟨str "TEMKO", str "S", str "L", [(str "JR", 1)], [(str "TEMKO SL JR", 1)], 1⟩ : Person).middle ∧
      (⟨str "TEMKO", str "S", str "L", [(str "JR", 1)], [(str "TEMKO SL JR", 1)], 1⟩ : Person).positions
        = (⟨str "TEMKO", str "S", str "L", [(str "JR", 1)], [(str "TEMKO SL JR", 1)], 1⟩ : Person).positions ∧
      (⟨str "TEMKO", str "S", str "L", [(str "JR", 1)], [(str "TEMKO SL JR", 1)], 1⟩ : Person).aliases
        = (⟨str "TEMKO", str "S", str "L", [(str "JR", 1)], [(str "TEMKO SL JR", 1)], 1⟩ : Person).aliases ∧
      (⟨str "TEMKO", str "S", str "L", [(str "JR", 1)], [(str "TEMKO SL JR", 1)], 1⟩ : Person).count
        = (⟨str "TEMKO", str "S", str "L", [(str "JR", 1)], [(str "TEMKO SL JR", 1)], 1⟩ : Person).count) ∧
    personBeq ⟨str "TEMKO", str "S", str "L", [(str "JR", 1)], [(str "TEMKO SL JR", 1)], 1⟩
      ⟨str "TEMKO", str "S", str "L", [(str "JR", 1)], [(str "TEMKO SL JR", 1)], 1⟩ = true :=
  person_copy_roundtrip (fun _ _ => .error .indexError) (fun _ _ => .error .indexError)
    (str "Temko") (str "s") (str "l")
    (some (.counter [(str "JR", 1)])) (some (.counter [(str "TEMKO SL JR", 1)])) 1
    ⟨str "TEMKO", str "S", str "L", [(str "JR", 1)], [(str "TEMKO SL JR", 1)], 1⟩
    ⟨str "TEMKO", str "S", str "L", [(str "JR", 1)], [(str "TEMKO SL JR", 1)], 1⟩
    (by decide) (by decide)

/- ===================== Claim C1 ===================== -/

theorem weightSum_nil (k : PyStr) : weightSum [] k = 0 := rfl

theorem weightSum_cons (p : PyStr × Int) (l : List (PyStr × Int)) (k : PyStr) :
    weightSum (p :: l) k = if p.1 = k then p.2 + weightSum l k else weightSum l k := by
  by_cases h : p.1 = k
  · have hb : (p.1 == k) = true := by simp [h]
    simp [weightSum, List.filter_cons, hb, h]
  · have hb : (p.1 == k) = false := by simp [h]
    simp [weightSum, List.filter_cons, hb, h]

theorem weightSum_not_mem (l : List (PyStr × Int)) (k : PyStr)
    (h : k ∉ l.map Prod.fst) : weightSum l k = 0 := by
  induction l with
  | nil => rfl
  | cons p t ih =>
    have h1 : p.1 ≠ k := by
      intro hh; exact h (by simp [hh])
    rw [weightSum_cons, if_neg h1]
    exact ih (fun hh => h (List.mem_cons_of_mem _ hh))

theorem weightSum_perm (l₁ l₂ : List (PyStr × Int)) (hp : List.Perm l₁ l₂) (k : PyStr) :
    weightSum l₁ k = weightSum l₂ k := by
  unfold weightSum
  exact List.Perm.sum_eq (List.Perm.map Prod.snd (List.Perm.filter (fun q => q.1 == k) hp))

theorem lookupZ_counterAdd (c : Counter) (k : PyStr) (n : Int) (q : PyStr) :
    lookupZ (counterAdd c k n) q =
      if q = k then some ((lookupZ c k).getD 0 + n) else lookupZ c q := by
  induction c with
  | nil =>
    by_cases h : q = k
    · subst h
      have hb : (q == q) = true := by simp
      simp [counterAdd, lookupZ, List.find?_cons, hb]
    · have hb : (k == q) = false := by
        simp only [beq_eq_false_iff_ne, ne_eq]
        exact fun hh => h hh.symm
      simp [counterAdd, lookupZ, List.find?_cons, hb, h]
  | cons p t ih =>
    by_cases hpk : p.1 = k
    · have hb : (p.1 == k) = true := by simp [hpk]
      simp only [counterAdd, hb, if_true]
      by_cases h : q = k
      · subst h
        have hbq : (p.1 == q) = true := by simp [hpk]
        simp [lookupZ, List.find?_cons, hbq, hpk]
      · have hbq : (p.1 == q) = false := by
          simp only [beq_eq_false_iff_ne, ne_eq, hpk]
          exact fun hh => h hh.symm
        simp [lookupZ, List.find?_cons, hbq, h]
    · have hb : (p.1 == k) = false := by simp [hpk]
      simp only [counterAdd, hb, Bool.false_eq_true, if_false]
      by_cases hq : p.1 = q
      · have hbq : (p.1 == q) = true := by simp [hq]
        have hqk : ¬ q = k := by rw [← hq]; exact hpk
        simp [lookupZ, List.find?_cons, hbq, hqk]
      · have hbq : (p.1 == q) = false := by simp [hq]
        simp only [lookupZ, List.find?_cons, hbq]
        have ihq := ih
        simp only [lookupZ] at ihq ⊢
        rw [ihq]
        by_cases h : q = k
        · subst h
          simp [List.find?_cons, hb]
        · simp [h]

theorem keyList_counterAdd_mem (c : Counter) (k : PyStr) (n : Int) (q : PyStr) :
    q ∈ keyList (counterAdd c k n) ↔ q ∈ keyList c ∨ q = k := by
  induction c with
  | nil =>
    simp only [counterAdd, keyList, List.map_cons, List.map_nil, List.mem_cons,
      List.not_mem_nil, List.mem_singleton]
    tauto
  | cons p t ih =>
    by_cases hpk : p.1 = k
    · have hb : (p.1 == k) = true := by simp [hpk]
      simp only [counterAdd, hb, if_true, keyList, List.map_cons, List.mem_cons]
      subst hpk
      tauto
    · have hb : (p.1 == k) = false := by simp [hpk]
      simp only [counterAdd, hb, Bool.false_eq_true, if_false, keyList, List.map_cons,
        List.mem_cons]
      have ih' := ih
      simp only [keyList] at ih'
      rw [ih']
      tauto

theorem keyList_counterAdd_nodup (c : Counter) (k : PyStr) (n : Int)
    (h : (keyList c).Nodup) : (keyList (counterAdd c k n)).Nodup := by
  induction c with
  | nil => simp [counterAdd, keyList]
  | cons p t ih =>
    simp only [keyList, List.map_cons, List.nodup_cons] at h
    by_cases hpk : (p.1 == k) = true
    · simp only [counterAdd, hpk, if_true, keyList, List.map_cons, List.nodup_cons]
      exact ⟨h.1, h.2⟩
    · have hpk' : p.1 ≠ k := by simpa using hpk
      simp only [counterAdd, hpk, Bool.false_eq_true, if_false, keyList, List.map_cons,
        List.nodup_cons]
      constructor
      · intro hmem
        rcases (keyList_counterAdd_mem t k n p.1).mp hmem with hh | hh
        · exact h.1 hh
        · exact hpk' hh
      · exact ih h.2

theorem accumulate_keys_nodup (l : List (PyStr × Int)) :
    (keyList (accumulate l)).Nodup := by
  have gen : ∀ (c : Counter), (keyList c).Nodup →
      (keyList (l.foldl (fun c p => counterAdd c p.1 p.2) c)).Nodup := by
    induction l with
    | nil => intro c h; exact h
    | cons p t ih =>
      intro c h
      exact ih (counterAdd c p.1 p.2) (keyList_counterAdd_nodup c p.1 p.2 h)
  exact gen [] (by simp [keyList])

theorem lookupZ_foldl (l : List (PyStr × Int)) :
    ∀ (c : Counter) (k : PyStr),
      lookupZ (l.foldl (fun c p => counterAdd c p.1 p.2) c) k =
        if k ∈ l.map Prod.fst then some ((lookupZ c k).getD 0 + weightSum l k)
        else lookupZ c k := by
  induction l with
  | nil => intro c k; simp [weightSum_nil]
  | cons p t ih =>
    intro c k
    have step : (p :: t).foldl (fun c p => counterAdd c p.1 p.2) c =
        t.foldl (fun c p => counterAdd c p.1 p.2) (counterAdd c p.1 p.2) := rfl
    rw [step, ih (counterAdd c p.1 p.2) k, lookupZ_counterAdd, weightSum_cons]
    by_cases hk : k = p.1
    · subst hk
      simp only [List.map_cons, List.mem_cons, true_or, if_true, eq_self_iff_true,
        Option.getD_some]
      by_cases hmem : p.1 ∈ t.map Prod.fst
      · simp only [hmem, if_true, Option.getD_some]
        congr 1
        omega
      · simp only [hmem, if_false, Option.getD_some]
        rw [weightSum_not_mem t p.1 hmem]
        congr 1
        omega
    · have hk' : p.1 ≠ k := fun hh => hk hh.symm
      simp only [if_neg hk, if_neg hk', List.map_cons, List.mem_cons]
      by_cases hmem : k ∈ t.map Prod.fst
      · simp [hmem, hk]
      · simp [hmem, hk]

theorem lookupZ_accumulate (l : List (PyStr × Int)) (k : PyStr) :
    lookupZ (accumulate l) k =
      if k ∈ l.map Prod.fst then some (weightSum l k) else none := by
  have h := lookupZ_foldl l [] k
  simp only [accumulate]
  rw [h]
  have : lookupZ [] k = none := rfl
  rw [this]
  simp

theorem mem_iff_lookupZ (c : Counter) (h : (keyList c).Nodup) (k : PyStr) (v : Int) :
    (k, v) ∈ c ↔ lookupZ c k = some v := by
  induction c with
  | nil => simp [lookupZ]
  | cons p t ih =>
    simp only [keyList, List.map_cons, List.nodup_cons] at h
    constructor
    · intro hm
      rcases List.mem_cons.mp hm with hh | hh
      · have hb : (p.1 == k) = true := by simp [← hh]
        simp [lookupZ, List.find?_cons, hb, ← hh]
      · have hkt : k ∈ keyList t := by
          simp only [keyList, List.mem_map]
          exact ⟨(k, v), hh, rfl⟩
        have hb : (p.1 == k) = false := by
          simp only [keyList] at hkt
          simp
          intro he
          exact absurd (he ▸ hkt) h.1
        simp only [lookupZ, List.find?_cons, hb]
        have := (ih h.2).mp hh
        simpa [lookupZ] using this
    · intro hl
      cases hb : (p.1 == k) with
      | true =>
        simp only [lookupZ, List.find?_cons, hb] at hl
        have h1 : p.2 = v := Option.some.inj hl
        have h2 : p.1 = k := beq_iff_eq.mp hb
        rw [List.mem_cons]
        left
        rw [← h1, ← h2]
      | false =>
        simp only [lookupZ, List.find?_cons, hb] at hl
        right
        exact (ih h.2).mpr (by simpa [lookupZ] using hl)

theorem mem_accumulate (l : List (PyStr × Int)) (k : PyStr) (v : Int) :
    (k, v) ∈ accumulate l ↔ (k ∈ l.map Prod.fst ∧ v = weightSum l k) := by
  rw [mem_iff_lookupZ (accumulate l) (accumulate_keys_nodup l) k v, lookupZ_accumulate]
  by_cases hm : k ∈ l.map Prod.fst
  · simp [hm, eq_comm]
  · simp [hm]

theorem accumulate_nodup (l : List (PyStr × Int)) : (accumulate l).Nodup :=
  (accumulate_keys_nodup l).of_map Prod.fst

theorem perm_accumulate (l₁ l₂ : List (PyStr × Int)) (hp : List.Perm l₁ l₂) :
    List.Perm (accumulate l₁) (accumulate l₂) := by
  refine (List.perm_ext_iff_of_nodup (accumulate_nodup l₁) (accumulate_nodup l₂)).mpr ?_
  rintro ⟨k, v⟩
  rw [mem_accumulate, mem_accumulate, weightSum_perm l₁ l₂ hp k]
  have hkeys : k ∈ l₁.map Prod.fst ↔ k ∈ l₂.map Prod.fst := (hp.map Prod.fst).mem_iff
  rw [hkeys]

theorem insSorted_pairwise (a : PyStr × Int) (l : List (PyStr × Int))
    (h : l.Pairwise (fun x y => y.2 ≤ x.2)) :
    (insSorted a l).Pairwise (fun x y => y.2 ≤ x.2) := by
  induction l with
  | nil => simp [insSorted]
  | cons b bs ih =>
    rcases List.pairwise_cons.mp h with ⟨hb, hbs⟩
    by_cases hg : geCntB a b = true
    · have hba : b.2 ≤ a.2 := by simpa [geCntB] using hg
      simp only [insSorted, hg, if_true]
      refine List.pairwise_cons.mpr ⟨?_, h⟩
      intro x hx
      rcases List.mem_cons.mp hx with rfl | hx'
      · exact hba
      · exact le_trans (hb x hx') hba
    · have hab : a.2 ≤ b.2 := by
        have hnb : ¬ b.2 ≤ a.2 := by simpa [geCntB] using hg
        omega
      simp only [insSorted, hg, Bool.false_eq_true, if_false]
      refine List.pairwise_cons.mpr ⟨?_, ih hbs⟩
      intro x hx
      rcases List.mem_cons.mp ((insSorted_perm a bs).subset hx) with rfl | hx2
      · exact hab
      · exact hb x hx2

theorem mostCommon_pairwise (c : Counter) :
    (mostCommon c).Pairwise (fun x y => y.2 ≤ x.2) := by
  induction c with
  | nil => simp [mostCommon]
  | cons p t ih => exact insSorted_pairwise p (mostCommon t) ih

theorem sorted_perm_distinct :
    ∀ (l₁ l₂ : List (PyStr × Int)), List.Perm l₁ l₂ →
      l₁.Pairwise (fun x y => y.2 ≤ x.2) → l₂.Pairwise (fun x y => y.2 ≤ x.2) →
      (∀ p ∈ l₁, ∀ q ∈ l₁, p.2 = q.2 → p = q) → l₁ = l₂ := by
  intro l₁
  induction l₁ with
  | nil =>
    intro l₂ hp _ _ _
    exact (hp.symm.eq_nil).symm
  | cons a t ih =>
    intro l₂ hp hs1 hs2 hd
    cases l₂ with
    | nil =>
      have := hp.eq_nil
      simp at this
    | cons b t₂ =>
      have hab : a = b := by
        have haIn : a ∈ b :: t₂ := hp.subset (List.mem_cons_self a t)
        rcases List.mem_cons.mp haIn with h | h
        · exact h
        · have h1 : a.2 ≤ b.2 := (List.pairwise_cons.mp hs2).1 a h
          have hbIn : b ∈ a :: t := hp.symm.subset (List.mem_cons_self b t₂)
          rcases List.mem_cons.mp hbIn with h2 | h2
          · exact h2.symm
          · have h3 : b.2 ≤ a.2 := (List.pairwise_cons.mp hs1).1 b h2
            exact hd a (List.mem_cons_self a t) b (List.mem_cons_of_mem a h2)
              (le_antisymm h1 h3)
      subst hab
      have htp : List.Perm t t₂ := hp.cons_inv
      have hteq : t = t₂ := ih t₂ htp (List.pairwise_cons.mp hs1).2
        (List.pairwise_cons.mp hs2).2
        (fun p hp' q hq' => hd p (List.mem_cons_of_mem a hp') q (List.mem_cons_of_mem a hq'))
      rw [hteq]

theorem mostCommon_eq_of_perm_distinct (c₁ c₂ : Counter) (hp : List.Perm c₁ c₂)
    (hd : ∀ p ∈ c₁, ∀ q ∈ c₁, p.2 = q.2 → p = q) :
    mostCommon c₁ = mostCommon c₂ := by
  refine sorted_perm_distinct (mostCommon c₁) (mostCommon c₂)
    (((mostCommon_perm c₁).trans hp).trans (mostCommon_perm c₂).symm)
    (mostCommon_pairwise c₁) (mostCommon_pairwise c₂) ?_
  intro p hp' q hq' he
  exact hd p ((mostCommon_perm c₁).mem_iff.mp hp') q ((mostCommon_perm c₁).mem_iff.mp hq') he

theorem counterRepr_congr (c₁ c₂ : Counter) (hp : List.Perm c₁ c₂)
    (hmc : mostCommon c₁ = mostCommon c₂) : counterRepr c₁ = counterRepr c₂ := by
  by_cases h : c₁ = []
  · subst h
    have h2 : c₂ = [] := hp.symm.eq_nil
    subst h2
    rfl
  · have h2 : c₂ ≠ [] := fun hh => h (by rw [hh] at hp; exact hp.eq_nil)
    have he1 : ¬ (c₁.isEmpty = true) := by simp [h]
    have he2 : ¬ (c₂.isEmpty = true) := by simp [h2]
    unfold counterRepr
    rw [if_neg he1, if_neg he2, hmc]

theorem distinctCountsB_iff (c : Counter) :
    distinctCountsB c = true ↔ ∀ p ∈ c, ∀ q ∈ c, p.2 = q.2 → p = q := by
  unfold distinctCountsB
  rw [List.all_eq_true]
  constructor
  · intro h p hp q hq he
    have h1 := h p hp
    rw [List.all_eq_true] at h1
    exact of_decide_eq_true (h1 q hq) he
  · intro h p hp
    rw [List.all_eq_true]
    intro q hq
    exact decide_eq_true (h p hp q hq)

/-- Claim C1 (amended): record equality and hashing are structural over the
`most_common()` serialization.  Two records with equal last, first and
middle strings whose positions and aliases multisets are built by
accumulating the same (key, weight) pairs in different orders compare equal
and hash equally *provided no two distinct keys of a multiset end up with
the same total count* (Python's tie order among equal counts is insertion
order, so ties make the serialized hashes differ). -/
theorem person_eq_amended (last first middle : PyStr) (cnt : Int)
    (lp₁ lp₂ la₁ la₂ : List (PyStr × Int))
    (hp : List.Perm lp₁ lp₂) (ha : List.Perm la₁ la₂)
    (hdp : distinctCountsB (accumulate lp₁) = true)
    (hda : distinctCountsB (accumulate la₁) = true) :
    personBeq ⟨last, first, middle, accumulate lp₁, accumulate la₁, cnt⟩
      ⟨last, first, middle, accumulate lp₂, accumulate la₂, cnt⟩ = true := by
  have hpp := perm_accumulate lp₁ lp₂ hp
  have hpa := perm_accumulate la₁ la₂ ha
  have hmcp := mostCommon_eq_of_perm_distinct _ _ hpp ((distinctCountsB_iff _).mp hdp)
  have hmca := mostCommon_eq_of_perm_distinct _ _ hpa ((distinctCountsB_iff _).mp hda)
  have hrp := counterRepr_congr _ _ hpp hmcp
  have hra := counterRepr_congr _ _ hpa hmca
  simp [personBeq, personKey, hrp, hra]

/-- Claim C1 counterexample: accumulating the same (key, weight) pairs
`("A",1)` and `("B",1)` in the two possible orders yields multisets with
equal contents (they are permutations of one another), yet the two records
serialize their tied counts in insertion order and therefore compare
*unequal* — structural equality is not insertion-order-independent when
counts tie. -/
theorem person_eq_counterexample :
    List.Perm (accumulate [(str "A", (1 : Int)), (str "B", 1)])
      (accumulate [(str "B", (1 : Int)), (str "A", 1)]) ∧
    personBeq
      ⟨str "L", str "F", str "M", accumulate [(str "A", (1 : Int)), (str "B", 1)],
        [(str "X", 1)], 1⟩
      ⟨str "L", str "F", str "M", accumulate [(str "B", (1 : Int)), (str "A", 1)],
        [(str "X", 1)], 1⟩ = false := by
  constructor
  · exact List.Perm.swap (str "B", (1 : Int)) (str "A", (1 : Int)) []
  · decide

/-- Claim C1 witness: with tie-free counts (2 and 1), accumulation order
does not matter and the records compare equal. -/
theorem person_eq_amended_witness :
    personBeq
      ⟨str "L", str "F", str "M", accumulate [(str "A", (2 : Int)), (str "B", 1)],
        accumulate [(str "X", (1 : Int))], 1⟩
      ⟨str "L", str "F", str "M", accumulate [(str "B", (1 : Int)), (str "A", 2)],
        accumulate [(str "X", (1 : Int))], 1⟩ = true :=
  person_eq_amended (str "L") (str "F") (str "M") 1
    [(str "A", (2 : Int)), (str "B", 1)] [(str "B", (1 : Int)), (str "A", 2)]
    [(str "X", (1 : Int))] [(str "X", (1 : Int))]
    (List.Perm.swap (str "B", (1 : Int)) (str "A", (2 : Int)) [])
    (List.Perm.refl _) (by decide) (by decide)

end Tob
